import Mathlib

/-!
Verification of `scripts/git-analysis.py`: a shallow embedding of the
pure/deterministic parts of the script (file sampling, prompt assembly,
model-response parsing, tree-walk pagination, mind-map slugification,
content collection) together with theorems settling the specification
claims about them.

Strings are embedded as `List Char`; Python's `str.find`, `str.rfind`
and slicing are modelled with Python's exact index semantics (negative
results and negative-index slicing included).
-/

namespace GitAnalysis

/-- ASCII lowercasing, mirroring Python `str.lower()` on ASCII input. -/
def asciiToLower (c : Char) : Char :=
  if 'A' ≤ c ∧ c ≤ 'Z' then Char.ofNat (c.toNat + 32) else c

/-- The character class `[A-Za-z0-9]` of the slugification regex. -/
def isAlnumAscii (c : Char) : Bool :=
  ('A' ≤ c && c ≤ 'Z') || ('a' ≤ c && c ≤ 'z') || ('0' ≤ c && c ≤ '9')

/-- JSON insignificant whitespace, as accepted by Python's `json.loads`. -/
def isJsonWs (c : Char) : Bool :=
  c = ' ' || c = '\t' || c = '\n' || c = '\r'

/-- Python `s.find(c)`: index of the first occurrence, `-1` if absent. -/
def pyFind (s : List Char) (c : Char) : Int :=
  match s.findIdx? (· = c) with
  | some i => (i : Int)
  | none => -1

/-- Python `s.rfind(c)`: index of the last occurrence, `-1` if absent. -/
def pyRfind (s : List Char) (c : Char) : Int :=
  match s.reverse.findIdx? (· = c) with
  | some i => (s.length : Int) - 1 - (i : Int)
  | none => -1

/-- Python slicing `s[i:j]` for integer bounds: negative indices count
from the end, then both bounds are clamped to `[0, len]`. -/
def pySlice (s : List Char) (i j : Int) : List Char :=
  let n : Int := s.length
  let i' : Int := if i < 0 then max (i + n) 0 else min i n
  let j' : Int := if j < 0 then max (j + n) 0 else min j n
  (s.drop i'.toNat).take (j' - i').toNat

/-- JSON values as produced by `json.loads`.  Numbers keep their source
lexeme (the script never interprets numeric values), objects keep their
members in source order (lookups take the last binding, as a Python
`dict` built left to right would). -/
inductive JVal where
  | null : JVal
  | bool : Bool → JVal
  | num : List Char → JVal
  | str : List Char → JVal
  | arr : List JVal → JVal
  | obj : List (List Char × JVal) → JVal

/-- Skip JSON whitespace. -/
def skipWs (s : List Char) : List Char := s.dropWhile isJsonWs

/-- Decode one string-escape character (the char after a backslash). -/
def escChar (c : Char) : Option Char :=
  if c = '"' then some '"'
  else if c = '\\' then some '\\'
  else if c = '/' then some '/'
  else if c = 'b' then some (Char.ofNat 8)
  else if c = 'f' then some (Char.ofNat 12)
  else if c = 'n' then some '\n'
  else if c = 'r' then some '\r'
  else if c = 't' then some '\t'
  else none

/-- Hex digit value. -/
def hexVal (c : Char) : Option Nat :=
  if '0' ≤ c ∧ c ≤ '9' then some (c.toNat - '0'.toNat)
  else if 'a' ≤ c ∧ c ≤ 'f' then some (c.toNat - 'a'.toNat + 10)
  else if 'A' ≤ c ∧ c ≤ 'F' then some (c.toNat - 'A'.toNat + 10)
  else none

/-- Parse the body of a JSON string after the opening quote: returns the
decoded characters and the input remaining after the closing quote.
Bare control characters are rejected, as in strict `json.loads`. -/
def parseStringBody : List Char → Option (List Char × List Char)
  | [] => none
  | '"' :: rest => some ([], rest)
  | '\\' :: 'u' :: h1 :: h2 :: h3 :: h4 :: rest => do
      let v1 ← hexVal h1
      let v2 ← hexVal h2
      let v3 ← hexVal h3
      let v4 ← hexVal h4
      let (cs, r) ← parseStringBody rest
      some (Char.ofNat (((v1 * 16 + v2) * 16 + v3) * 16 + v4) :: cs, r)
  | '\\' :: e :: rest => do
      let c ← escChar e
      let (cs, r) ← parseStringBody rest
      some (c :: cs, r)
  | c :: rest =>
      if c.toNat < 32 then none
      else do
        let (cs, r) ← parseStringBody rest
        some (c :: cs, r)

/-- One or more decimal digits. -/
def parseDigits : List Char → Option (List Char × List Char)
  | c :: rest =>
      if '0' ≤ c ∧ c ≤ '9' then
        match rest with
        | d :: _ =>
            if '0' ≤ d ∧ d ≤ '9' then
              match parseDigits rest with
              | some (ds, r) => some (c :: ds, r)
              | none => none
            else some ([c], rest)
        | [] => some ([c], [])
      else none
  | [] => none

/-- JSON number lexeme: `-? digits (. digits)? ((e|E) (+|-)? digits)?`. -/
def parseNumber (s : List Char) : Option (List Char × List Char) := do
  let (sign, s1) :=
    match s with
    | '-' :: r => (['-'], r)
    | _ => (([] : List Char), s)
  let (intPart, s2) ← parseDigits s1
  let (fracPart, s3) :=
    match s2 with
    | '.' :: r =>
        match parseDigits r with
        | some (ds, r2) => ('.' :: ds, r2)
        | none => (([] : List Char), s2)
    | _ => (([] : List Char), s2)
  let (expPart, s4) :=
    match s3 with
    | 'e' :: '+' :: r =>
        match parseDigits r with
        | some (ds, r2) => ('e' :: '+' :: ds, r2)
        | none => (([] : List Char), s3)
    | 'e' :: '-' :: r =>
        match parseDigits r with
        | some (ds, r2) => ('e' :: '-' :: ds, r2)
        | none => (([] : List Char), s3)
    | 'e' :: r =>
        match parseDigits r with
        | some (ds, r2) => ('e' :: ds, r2)
        | none => (([] : List Char), s3)
    | 'E' :: '+' :: r =>
        match parseDigits r with
        | some (ds, r2) => ('E' :: '+' :: ds, r2)
        | none => (([] : List Char), s3)
    | 'E' :: '-' :: r =>
        match parseDigits r with
        | some (ds, r2) => ('E' :: '-' :: ds, r2)
        | none => (([] : List Char), s3)
    | 'E' :: r =>
        match parseDigits r with
        | some (ds, r2) => ('E' :: ds, r2)
        | none => (([] : List Char), s3)
    | _ => (([] : List Char), s3)
  some (sign ++ intPart ++ fracPart ++ expPart, s4)

mutual

/-- Recursive-descent JSON value parse, fuel-bounded.  Mirrors the strict
grammar accepted by Python's `json.loads`. -/
def parseValue : Nat → List Char → Option (JVal × List Char)
  | 0, _ => none
  | fuel + 1, s =>
      match skipWs s with
      | [] => none
      | c :: r =>
          if c = '{' then
            match skipWs r with
            | '}' :: r2 => some (JVal.obj [], r2)
            | _ =>
                match parseMembers fuel r with
                | some (fs, r2) => some (JVal.obj fs, r2)
                | none => none
          else if c = '[' then
            match skipWs r with
            | ']' :: r2 => some (JVal.arr [], r2)
            | _ =>
                match parseElems fuel r with
                | some (vs, r2) => some (JVal.arr vs, r2)
                | none => none
          else if c = '"' then
            match parseStringBody r with
            | some (cs, r2) => some (JVal.str cs, r2)
            | none => none
          else if c = 't' then
            match r with
            | 'r' :: 'u' :: 'e' :: r2 => some (JVal.bool true, r2)
            | _ => none
          else if c = 'f' then
            match r with
            | 'a' :: 'l' :: 's' :: 'e' :: r2 => some (JVal.bool false, r2)
            | _ => none
          else if c = 'n' then
            match r with
            | 'u' :: 'l' :: 'l' :: r2 => some (JVal.null, r2)
            | _ => none
          else
            match parseNumber (c :: r) with
            | some (lex, r2) => some (JVal.num lex, r2)
            | none => none

/-- Object members (at least one), starting just after `{` or `,`. -/
def parseMembers : Nat → List Char → Option (List (List Char × JVal) × List Char)
  | 0, _ => none
  | fuel + 1, s =>
      match skipWs s with
      | '"' :: r =>
          (match parseStringBody r with
           | some (key, r2) =>
               (match skipWs r2 with
                | ':' :: r3 =>
                    (match parseValue fuel r3 with
                     | some (v, r4) =>
                         (match skipWs r4 with
                          | ',' :: r5 =>
                              (match parseMembers fuel r5 with
                               | some (fs, r6) => some ((key, v) :: fs, r6)
                               | none => none)
                          | '}' :: r5 => some ([(key, v)], r5)
                          | _ => none)
                     | none => none)
                | _ => none)
           | none => none)
      | _ => none

/-- Array elements (at least one), starting just after `[` or `,`. -/
def parseElems : Nat → List Char → Option (List JVal × List Char)
  | 0, _ => none
  | fuel + 1, s =>
      match parseValue fuel s with
      | some (v, r) =>
          (match skipWs r with
           | ',' :: r2 =>
               (match parseElems fuel r2 with
                | some (vs, r3) => some (v :: vs, r3)
                | none => none)
           | ']' :: r2 => some ([v], r2)
           | _ => none)
      | none => none

end

/-- `json.loads`: parse one value and require only whitespace after it. -/
def jsonLoads (s : List Char) : Option JVal :=
  match parseValue (s.length + 1) s with
  | some (v, rest) => if skipWs rest = [] then some v else none
  | none => none

/-- Lookup of a key in an object's member list; the last binding wins,
matching the Python `dict` built by `json.loads` from source order. -/
def objLookup (fs : List (List Char × JVal)) (k : List Char) : Option JVal :=
  fs.foldl (fun acc p => if p.1 = k then some p.2 else acc) none

/-- Python `analysis.get(key, default)`: succeeds with the binding or the
default on a dict, fails (AttributeError) on any non-dict value. -/
def dictGet (v : JVal) (k : List Char) (d : JVal) : Except Unit JVal :=
  match v with
  | JVal.obj fs => Except.ok ((objLookup fs k).getD d)
  | _ => Except.error ()

/-- The degraded result built by `analyze` when the response text fails
to parse (lines 188–195 of the script). -/
def fallbackResult (out : List Char) : JVal :=
  JVal.obj
    [ ("c1".toList, JVal.str "Parsing error; see narrative.".toList),
      ("c2".toList, JVal.str []),
      ("c3".toList, JVal.str []),
      ("c4".toList, JVal.str []),
      ("mindmap".toList, JVal.obj
        [ ("root".toList, JVal.str "Project".toList),
          ("branches".toList, JVal.arr []),
          ("edges".toList, JVal.arr []) ]),
      ("narrative".toList, JVal.str (out.take 4000)) ]

/-- `json.loads(out[out.find(chr(123)) : out.rfind(chr(125)) + 1])`:
the brace-bounded substring extraction and parse of `analyze`. -/
def extractJson (out : List Char) : Option JVal :=
  jsonLoads (pySlice out (pyFind out '{') (pyRfind out '}' + 1))

/-- The value returned by `analyze` as a function of the response text:
the parsed brace-bounded object on success, the degraded fallback on any
parse failure. -/
def analyzeParse (out : List Char) : JVal :=
  match extractJson out with
  | some v => v
  | none => fallbackResult out

/-- Per-file character budget for snippets (`text[:3000]`). -/
def snippetBudget : Nat := 3000

/-- Cumulative soft cap for snippet assembly (`limit = 12000`). -/
def snippetCap : Nat := 12000

/-- The snippet string appended for one file:
`f"\n### {path}\n``````"` — note that the fenced block is empty; the
truncated content `short` is not interpolated by the source line. -/
def snippetFor (path : List Char) : List Char :=
  "\n### ".toList ++ path ++ "\n``````".toList

/-- The snippet-assembly loop of `analyze` (lines 143–151): walks the
sampled files in order, stopping before a file once the cumulative
truncated-length count exceeds the cap. -/
def buildSnippetsAux : List (List Char × List Char) → Nat → List (List Char)
  | [], _ => []
  | (path, text) :: rest, used =>
      if used > snippetCap then []
      else snippetFor path :: buildSnippetsAux rest (used + min text.length snippetBudget)

/-- The `snippet_pairs` list produced for a sampled-files mapping. -/
def buildSnippets (files : List (List Char × List Char)) : List (List Char) :=
  buildSnippetsAux files 0

/-- Sum of truncated snippet lengths of the first `i` files: the value of
`used` before file `i` is considered. -/
def truncSum (files : List (List Char × List Char)) (i : Nat) : Nat :=
  ((files.take i).map (fun pt => min pt.2.length snippetBudget)).sum

/-- `files_list = "\n".join(f"- {p}" for p in sampled_files)`. -/
def filesList (paths : List (List Char)) : List Char :=
  match paths with
  | [] => []
  | p :: rest => "- ".toList ++ p ++ (rest.map (fun q => "\n- ".toList ++ q)).flatten

/-- The composed user-message body `input_text` (lines 153–162). -/
def inputText (projectSummary : List Char) (files : List (List Char × List Char)) :
    List Char :=
  "\nPROJECT SUMMARY:\n".toList ++ projectSummary ++
  "\n\nFILES INCLUDED:\n".toList ++ filesList (files.map Prod.fst) ++
  "\n\nSNIPPETS:\n".toList ++ (buildSnippets files).flatten ++
  "\n".toList

/-- Substring test: does `needle` occur contiguously inside `hay`? -/
def containsSub (needle hay : List Char) : Bool :=
  hay.tails.any (fun t => needle.isPrefixOf t)

/-! ### Regular expressions

A small regular-expression language with Brzozowski-derivative matching,
used to embed the `re.search` calls of `sample_files_for_llm` exactly as
the patterns are written in the source (including the doubled
backslashes that appear in the raw-string literals). -/

inductive Rx where
  | emp : Rx
  | eps : Rx
  | ch : Char → Rx
  | anyc : Rx
  | alt : Rx → Rx → Rx
  | cat : Rx → Rx → Rx
  | star : Rx → Rx
deriving DecidableEq

/-- Does the regex accept the empty string? -/
def Rx.nullable : Rx → Bool
  | .emp => false
  | .eps => true
  | .ch _ => false
  | .anyc => false
  | .alt a b => a.nullable || b.nullable
  | .cat a b => a.nullable && b.nullable
  | .star _ => true

/-- Alternation, simplifying the empty language away. -/
def Rx.mkAlt (a b : Rx) : Rx :=
  if a = .emp then b else if b = .emp then a else .alt a b

/-- Concatenation, simplifying the empty language and empty string away. -/
def Rx.mkCat (a b : Rx) : Rx :=
  if a = .emp ∨ b = .emp then .emp
  else if a = .eps then b
  else if b = .eps then a
  else .cat a b

/-- Brzozowski derivative with respect to one character. -/
def Rx.deriv : Rx → Char → Rx
  | .emp, _ => .emp
  | .eps, _ => .emp
  | .ch c, a => if c = a then .eps else .emp
  | .anyc, _ => .eps
  | .alt r1 r2, a => mkAlt (r1.deriv a) (r2.deriv a)
  | .cat r1 r2, a =>
      if r1.nullable then mkAlt (mkCat (r1.deriv a) r2) (r2.deriv a)
      else mkCat (r1.deriv a) r2
  | .star r, a => mkCat (r.deriv a) (.star r)

/-- Whole-string match by iterated derivatives. -/
def rxMatch (r : Rx) (s : List Char) : Bool :=
  (s.foldl Rx.deriv r).nullable

/-- A literal character sequence. -/
def rlit (s : List Char) : Rx :=
  s.foldr (fun c r => Rx.cat (Rx.ch c) r) Rx.eps

/-- Sequence of regexes. -/
def rcats (l : List Rx) : Rx := l.foldr Rx.cat Rx.eps

/-- Alternation of a non-empty list of regexes. -/
def ralts (l : List Rx) : Rx := l.foldr Rx.alt Rx.emp

/-- Optional group `(...)?`. -/
def ropt (r : Rx) : Rx := Rx.alt Rx.eps r

/-- The regex fragment written `\\.` in the source's raw-string
patterns: a literal backslash followed by any character. -/
def bsAny : Rx := Rx.cat (Rx.ch '\\') Rx.anyc

/-- `(py|js|ts)`. -/
def extPJT : Rx := ralts [rlit "py".toList, rlit "js".toList, rlit "ts".toList]

/-- The bodies `B` of the 18 priority patterns `(^|/)B$` of
`sample_files_for_llm`, in source order, with literals lowercased
(matching is done under `re.IGNORECASE`). -/
def patternBodies : List Rx :=
  [ rcats [rlit "requirements".toList, bsAny, rlit "txt".toList],
    rcats [rlit "pyproject".toList, bsAny, rlit "toml".toList],
    rcats [rlit "poetry".toList, bsAny, rlit "lock".toList],
    rcats [rlit "package".toList, bsAny, rlit "json".toList],
    rcats [rlit "build".toList, bsAny, rlit "gradle".toList,
           ropt (rcats [bsAny, rlit "kts".toList])],
    rcats [rlit "pom".toList, bsAny, rlit "xml".toList],
    rlit "dockerfile".toList,
    rcats [rlit "docker-compose".toList, bsAny, rlit "y".toList,
           ropt (Rx.ch 'a'), rlit "ml".toList],
    rcats [Rx.star Rx.anyc, bsAny, rlit "y".toList, ropt (Rx.ch 'a'),
           rlit "ml".toList],
    rlit "makefile".toList,
    rcats [Rx.star Rx.anyc, rlit "settings".toList, bsAny, rlit "py".toList],
    rcats [rlit "main".toList, bsAny,
           ralts [rlit "py".toList, rlit "js".toList, rlit "ts".toList,
                  rlit "go".toList, rlit "java".toList]],
    rcats [rlit "app".toList, bsAny, extPJT],
    rcats [Rx.star Rx.anyc, rlit "init".toList, bsAny, rlit "py".toList],
    rcats [Rx.star Rx.anyc, rlit "route".toList, ropt (Rx.ch 's'), bsAny,
           rlit "py".toList],
    rcats [Rx.star Rx.anyc, rlit "controller".toList, Rx.star Rx.anyc, bsAny,
           extPJT],
    rcats [Rx.star Rx.anyc, rlit "service".toList, Rx.star Rx.anyc, bsAny,
           extPJT],
    rcats [Rx.star Rx.anyc, rlit "config".toList, Rx.star Rx.anyc, bsAny,
           ralts [rlit "py".toList, rlit "js".toList, rlit "ts".toList,
                  rlit "yaml".toList, rlit "yml".toList]] ]

/-- `re.search(pattern, f, flags=re.IGNORECASE)` for a pattern of the
form `(^|/)B$`: the match must end at the end of the string and start
either at position 0 (the `^` branch) or right after a `/`. -/
def searchMatches (b : Rx) (f : List Char) : Bool :=
  rxMatch (Rx.alt b (Rx.cat (Rx.star Rx.anyc) (Rx.cat (Rx.ch '/') b)))
    (f.map asciiToLower)

/-! ### File-selection heuristics -/

/-- The extension allow-list of `is_text_file`. -/
def textExts : List String :=
  [".py", ".js", ".ts", ".java", ".go", ".rb", ".php", ".cs", ".cpp", ".c",
   ".h", ".hpp", ".rs", ".kt", ".m", ".swift", ".scala", ".sql", ".yaml",
   ".yml", ".json", ".toml", ".ini", ".cfg", ".md", ".txt", ".sh", ".bash",
   ".ps1", ".xml", ".html", ".css", ".vue", ".svelte", ".gradle",
   ".properties", ".dockerfile", ".dockerignore", ".gitignore"]

/-- `os.path.basename` restricted to `/` separators. -/
def pyBasename (l : List Char) : List Char :=
  (l.reverse.takeWhile (fun c => c ≠ '/')).reverse

/-- `is_text_file`: case-insensitive extension allow-list plus three
conventionally named extensionless files. -/
def isTextFile (name : List Char) : Bool :=
  let lower := name.map asciiToLower
  textExts.any (fun e => e.toList.isSuffixOf lower) ||
    (pyBasename lower = "dockerfile".toList ||
     pyBasename lower = "makefile".toList ||
     pyBasename lower = "procfile".toList)

/-- The `priority` list of `sample_files_for_llm`: for each pattern in
order, every file (in list order) the pattern matches; duplicates across
patterns are kept. -/
def priorityFiles (files : List (List Char)) : List (List Char) :=
  (patternBodies.map (fun b => files.filter (fun f => searchMatches b f))).flatten

/-- Helper for `dedupFirst`: `seen` holds the keys already emitted. -/
def dedupFirstAux (seen : List (List Char)) : List (List Char) → List (List Char)
  | [] => []
  | x :: xs =>
      if x ∈ seen then dedupFirstAux seen xs
      else x :: dedupFirstAux (x :: seen) xs

/-- `list(dict.fromkeys(l))`: keep the first occurrence of each element,
drop later duplicates, preserve order. -/
def dedupFirst (l : List (List Char)) : List (List Char) :=
  dedupFirstAux [] l

/-- `sample_files_for_llm(files, limit)`. -/
def sampleFilesForLLM (files : List (List Char)) (limit : Nat) : List (List Char) :=
  let priority := priorityFiles files
  let remainder := files.filter (fun f => !(priority.contains f) && isTextFile f)
  (dedupFirst (priority ++ remainder)).take limit

/-! ### Tree walking -/

/-- The pagination loop of `GitLabRepo.walk_tree` (lines 89–101): fetch
page after page, stop on an empty page, or right after the accumulated
item count reaches `MAX_FILES`. -/
def walkTreeAux (provider : Nat → List α) (maxFiles : Nat) (page : Nat)
    (items : List α) : List α :=
  if h : (provider page).isEmpty then items
  else if hcap : maxFiles ≤ (items ++ provider page).length then
    items ++ provider page
  else walkTreeAux provider maxFiles (page + 1) (items ++ provider page)
termination_by maxFiles - items.length
decreasing_by
  simp only [List.length_append] at hcap ⊢
  have hne : provider page ≠ [] := by simpa [List.isEmpty_iff] using h
  have hc : 0 < (provider page).length := List.length_pos.mpr hne
  omega

/-- `walk_tree`: start at page 1 with an empty accumulator. -/
def walkTree (provider : Nat → List α) (maxFiles : Nat) : List α :=
  walkTreeAux provider maxFiles 1 []

/-! ### Mind-map slugification -/

/-- Collapse maximal runs of non-alphanumeric characters into a single
underscore (`re.sub` with pattern `[^A-Za-z0-9]+` and replacement `_`);
the flag records whether the previous character was inside such a run. -/
def collapseAux : Bool → List Char → List Char
  | _, [] => []
  | inRun, c :: rest =>
      if isAlnumAscii c then c :: collapseAux false rest
      else if inRun then collapseAux true rest
      else '_' :: collapseAux true rest

/-- Python `s.strip(chr(95))`: drop leading and trailing underscores. -/
def stripUnderscores (l : List Char) : List Char :=
  (((l.dropWhile (fun c => c = '_')).reverse.dropWhile (fun c => c = '_')).reverse)

/-- The `norm` lambda of `emit_mermaid_mindmap`: lowercase, collapse
non-alphanumeric runs to single underscores, strip edge underscores and
fall back to the literal `node` when the result is empty. -/
def slugify (s : List Char) : List Char :=
  let stripped := stripUnderscores (collapseAux false (s.map asciiToLower))
  if stripped = [] then "node".toList else stripped

/-! ### Content collection in `main` -/

/-- The content-collection loop of `main` (lines 366–372): a selected
path contributes an entry when it passes `is_text_file` and its fetch
result is truthy (present and non-empty). -/
def buildContents (fetch : List Char → Option (List Char))
    (selected : List (List Char)) : List (List Char × List Char) :=
  selected.filterMap (fun p =>
    if isTextFile p then
      match fetch p with
      | some t => if t = [] then none else some (p, t)
      | none => none
    else none)

/-- The candidate list of `sample_files_for_llm` before dedup/truncation:
pattern matches in rule order, then remaining text files in tree order. -/
def candidateFiles (files : List (List Char)) : List (List Char) :=
  priorityFiles files ++
    files.filter (fun f => !((priorityFiles files).contains f) && isTextFile f)

/-- The five-path tree of the C3 scenario: one manifest-style file
(`requirements.txt`) among four plain source files, in tree order. -/
def fiveFileTree : List (List Char) :=
  ["a.py".toList, "b.py".toList, "requirements.txt".toList,
   "c.py".toList, "d.py".toList]

/-- Concrete fetcher used by the C10 witness. -/
def fetchW (p : List Char) : Option (List Char) :=
  if p = "a.py".toList then some "x".toList else none

/-! ### Helper lemmas -/

theorem collapseAux_true_of_none (l : List Char)
    (h : ∀ c ∈ l, isAlnumAscii c = false) : collapseAux true l = [] := by
  induction l with
  | nil => rfl
  | cons c rest ih =>
      have hc := h c (List.mem_cons_self _ _)
      simp [collapseAux, hc, ih (fun d hd => h d (List.mem_cons_of_mem _ hd))]

theorem asciiToLower_not_alnum {c : Char} (h : isAlnumAscii c = false) :
    isAlnumAscii (asciiToLower c) = false := by
  unfold asciiToLower
  split
  · rename_i h2
    exfalso
    have : isAlnumAscii c = true := by
      simp [isAlnumAscii, h2.1, h2.2]
    simp [this] at h
  · exact h

theorem collapseAux_false_of_none (l : List Char)
    (h : ∀ c ∈ l, isAlnumAscii c = false) :
    collapseAux false l = [] ∨ collapseAux false l = ['_'] := by
  cases l with
  | nil => exact Or.inl rfl
  | cons c rest =>
      right
      have hc := h c (List.mem_cons_self _ _)
      simp [collapseAux, hc,
        collapseAux_true_of_none rest (fun d hd => h d (List.mem_cons_of_mem _ hd))]

theorem mem_dedupFirstAux (a : List Char) (seen : List (List Char)) :
    ∀ l, a ∈ dedupFirstAux seen l ↔ a ∈ l ∧ a ∉ seen := by
  intro l
  induction l generalizing seen with
  | nil => simp [dedupFirstAux]
  | cons x xs ih =>
      by_cases hx : x ∈ seen
      · simp only [dedupFirstAux, if_pos hx, ih, List.mem_cons]
        constructor
        · rintro ⟨h1, h2⟩; exact ⟨Or.inr h1, h2⟩
        · rintro ⟨h1 | h1, h2⟩
          · exact absurd (h1 ▸ hx) h2
          · exact ⟨h1, h2⟩
      · simp only [dedupFirstAux, if_neg hx, List.mem_cons, ih]
        constructor
        · rintro (rfl | ⟨h1, h2⟩)
          · exact ⟨Or.inl rfl, hx⟩
          · exact ⟨Or.inr h1, fun hs => h2 (Or.inr hs)⟩
        · rintro ⟨rfl | h1, h2⟩
          · exact Or.inl rfl
          · by_cases hax : a = x
            · exact Or.inl hax
            · exact Or.inr ⟨h1, by simp [hax, h2]⟩

theorem nodup_dedupFirstAux (seen : List (List Char)) :
    ∀ l, (dedupFirstAux seen l).Nodup := by
  intro l
  induction l generalizing seen with
  | nil => simp [dedupFirstAux]
  | cons x xs ih =>
      by_cases hx : x ∈ seen
      · simpa [dedupFirstAux, if_pos hx] using ih seen
      · simp only [dedupFirstAux, if_neg hx]
        refine List.nodup_cons.mpr ⟨fun hmem => ?_, ih _⟩
        exact ((mem_dedupFirstAux _ _ _).mp hmem).2 (List.mem_cons_self _ _)

theorem dedupFirstAux_sublist (seen : List (List Char)) :
    ∀ l, List.Sublist (dedupFirstAux seen l) l := by
  intro l
  induction l generalizing seen with
  | nil => simp [dedupFirstAux]
  | cons x xs ih =>
      by_cases hx : x ∈ seen
      · simpa [dedupFirstAux, if_pos hx] using (ih seen).cons x
      · simpa [dedupFirstAux, if_neg hx] using (ih (x :: seen)).cons₂ x

theorem sampleFilesForLLM_eq (files : List (List Char)) (limit : Nat) :
    sampleFilesForLLM files limit = (dedupFirst (candidateFiles files)).take limit := rfl

/-! ### Claim theorems -/

/-- C9: slugification of mind-map node names is deterministic and total:
every input maps to a non-empty identifier, and an input with no
alphanumeric character maps to the literal fallback `node`. -/
theorem slugify_total_nonempty_fallback (s : List Char) :
    slugify s ≠ [] ∧
    ((∀ c ∈ s, isAlnumAscii c = false) → slugify s = "node".toList) := by
  constructor
  · by_cases h : stripUnderscores (collapseAux false (s.map asciiToLower)) = []
    · simp [slugify, h]
    · simp [slugify, h]
  · intro h
    have h2 : ∀ c ∈ s.map asciiToLower, isAlnumAscii c = false := by
      intro c hc
      obtain ⟨d, hd, rfl⟩ := List.mem_map.mp hc
      exact asciiToLower_not_alnum (h d hd)
    rcases collapseAux_false_of_none _ h2 with h3 | h3 <;>
      simp [slugify, h3, stripUnderscores]

/-- Witness for `slugify_total_nonempty_fallback` at the concrete
alphanumeric-free input "--!". -/
theorem slugify_total_nonempty_fallback_witness :
    slugify "--!".toList ≠ [] ∧ slugify "--!".toList = "node".toList :=
  ⟨(slugify_total_nonempty_fallback "--!".toList).1,
   (slugify_total_nonempty_fallback "--!".toList).2 (by decide)⟩

/-- C10: an entry reaches the sampled-files mapping only for a selected
path that passes the text-file test and whose fetch succeeded with
non-empty decoded content. -/
theorem contents_entries_text_nonempty (fetch : List Char → Option (List Char))
    (selected : List (List Char)) (p t : List Char)
    (h : (p, t) ∈ buildContents fetch selected) :
    p ∈ selected ∧ isTextFile p = true ∧ fetch p = some t ∧ t ≠ [] := by
  obtain ⟨a, ha, heq⟩ := List.mem_filterMap.mp h
  by_cases ht : isTextFile a
  · rw [if_pos ht] at heq
    cases hf : fetch a with
    | none => rw [hf] at heq; simp at heq
    | some t2 =>
        rw [hf] at heq
        by_cases h0 : t2 = []
        · simp [h0] at heq
        · simp only [h0, if_neg, if_false, Option.some.injEq, Prod.mk.injEq] at heq
          obtain ⟨rfl, rfl⟩ := heq
          exact ⟨ha, ht, hf, h0⟩
  · rw [if_neg ht] at heq
    simp at heq

/-- Witness for `contents_entries_text_nonempty` at a concrete fetcher
and selected list. -/
theorem contents_entries_text_nonempty_witness :
    ("a.py".toList, "x".toList) ∈ buildContents fetchW ["a.py".toList] ∧
    ("a.py".toList ∈ ["a.py".toList] ∧ isTextFile "a.py".toList = true ∧
      fetchW "a.py".toList = some "x".toList ∧ "x".toList ≠ []) :=
  ⟨by decide,
   contents_entries_text_nonempty fetchW ["a.py".toList] _ _ (by decide)⟩

/-- C6: the sampled list has no duplicate paths, never exceeds the
limit, is a (not reordered) sublist of the priority-then-remainder
candidate list, and deduplication drops only later duplicates (the first
occurrence of every candidate survives it). -/
theorem sample_nodup_bounded_ordered (files : List (List Char)) (limit : Nat) :
    (sampleFilesForLLM files limit).Nodup ∧
    (sampleFilesForLLM files limit).length ≤ limit ∧
    List.Sublist (sampleFilesForLLM files limit) (candidateFiles files) ∧
    (∀ x, x ∈ dedupFirst (candidateFiles files) ↔ x ∈ candidateFiles files) := by
  refine ⟨?_, ?_, ?_, ?_⟩
  · exact (List.take_sublist _ _).nodup (nodup_dedupFirstAux [] (candidateFiles files))
  · simpa [sampleFilesForLLM_eq] using
      List.length_take_le limit (dedupFirst (candidateFiles files))
  · exact (List.take_sublist _ _).trans (dedupFirstAux_sublist [] _)
  · intro x
    simp [dedupFirst, mem_dedupFirstAux]

/-- C3 failing input: with limit 3, the sampler returns the first three
text files in tree order — the manifest file is NOT prioritized, because
every priority pattern containing the raw-string sequence backslash
backslash dot only matches paths that contain a literal backslash. -/
theorem sample_manifest_not_prioritized :
    sampleFilesForLLM fiveFileTree 3 =
      ["a.py".toList, "b.py".toList, "requirements.txt".toList] ∧
    (sampleFilesForLLM fiveFileTree 3).head? ≠ some "requirements.txt".toList ∧
    priorityFiles fiveFileTree = [] := by
  refine ⟨by decide, by decide, by decide⟩

/-- C2 failing input: for the sampled file `a.py` with content
`print(1)`, the composed body contains the path but not the content —
the source line appends an empty fenced block without interpolating the
truncated snippet text. -/
theorem snippet_content_missing :
    containsSub "a.py".toList
      (inputText "sum".toList [("a.py".toList, "print(1)".toList)]) = true ∧
    containsSub "print(1)".toList
      (inputText "sum".toList [("a.py".toList, "print(1)".toList)]) = false ∧
    buildSnippets [("a.py".toList, "print(1)".toList)] =
      ["\n### a.py\n``````".toList] := by
  refine ⟨by decide, by decide, by decide⟩

/-- C1 counterexample: on the unparseable response body
`not json at all`, the degraded result's `c1` field is the placeholder
message, not the empty string the claim asserts. -/
theorem analyze_fallback_c1_placeholder :
    dictGet (analyzeParse "not json at all".toList) "c1".toList (JVal.str []) =
      Except.ok (JVal.str "Parsing error; see narrative.".toList) ∧
    "Parsing error; see narrative.".toList ≠ [] :=
  ⟨rfl, by decide⟩

/-- C1 amended: any parse failure yields the degraded result, whose
`c2`, `c3`, `c4` are empty, whose `c1` is the fixed placeholder message,
whose narrative is the first 4000 characters of the raw text, and whose
mind-map is the `Project` default. -/
theorem analyze_parse_failure_degraded (out : List Char)
    (h : extractJson out = none) :
    analyzeParse out = fallbackResult out ∧
    dictGet (analyzeParse out) "c1".toList (JVal.str []) =
      Except.ok (JVal.str "Parsing error; see narrative.".toList) ∧
    dictGet (analyzeParse out) "c2".toList (JVal.str []) = Except.ok (JVal.str []) ∧
    dictGet (analyzeParse out) "c3".toList (JVal.str []) = Except.ok (JVal.str []) ∧
    dictGet (analyzeParse out) "c4".toList (JVal.str []) = Except.ok (JVal.str []) ∧
    dictGet (analyzeParse out) "narrative".toList (JVal.str []) =
      Except.ok (JVal.str (out.take 4000)) ∧
    dictGet (analyzeParse out) "mindmap".toList (JVal.str []) =
      Except.ok (JVal.obj
        [ ("root".toList, JVal.str "Project".toList),
          ("branches".toList, JVal.arr []),
          ("edges".toList, JVal.arr []) ]) := by
  have e : analyzeParse out = fallbackResult out := by
    unfold analyzeParse
    rw [h]
  refine ⟨e, ?_, ?_, ?_, ?_, ?_, ?_⟩ <;> rw [e] <;> rfl

/-- Witness for `analyze_parse_failure_degraded` at the concrete
unparseable body. -/
theorem analyze_parse_failure_degraded_witness :
    extractJson "not json at all".toList = none ∧
    analyzeParse "not json at all".toList =
      fallbackResult "not json at all".toList :=
  ⟨rfl, (analyze_parse_failure_degraded "not json at all".toList rfl).1⟩

theorem truncSum_zero (files : List (List Char × List Char)) :
    truncSum files 0 = 0 := rfl

theorem truncSum_cons (p t : List Char) (rest : List (List Char × List Char))
    (j : Nat) :
    truncSum ((p, t) :: rest) (j + 1) =
      min t.length snippetBudget + truncSum rest j := by
  simp [truncSum, List.take_succ_cons]

theorem buildSnippetsAux_spec (files : List (List Char × List Char)) :
    ∀ used, ∃ k, k ≤ files.length ∧
      buildSnippetsAux files used = (files.take k).map (fun pt => snippetFor pt.1) ∧
      (∀ i, i < k → used + truncSum files i ≤ snippetCap) ∧
      (k < files.length → used + truncSum files k > snippetCap) := by
  induction files with
  | nil =>
      intro used
      refine ⟨0, Nat.le_refl _, rfl, ?_, ?_⟩
      · intro i hi; omega
      · intro h; simp at h
  | cons pt rest ih =>
      intro used
      obtain ⟨p, t⟩ := pt
      by_cases hcap : used > snippetCap
      · refine ⟨0, Nat.zero_le _, ?_, ?_, ?_⟩
        · simp [buildSnippetsAux, if_pos hcap]
        · intro i hi; omega
        · intro _; rw [truncSum_zero]; omega
      · obtain ⟨k, hk, heq, hall, hcross⟩ := ih (used + min t.length snippetBudget)
        refine ⟨k + 1, by simpa using Nat.succ_le_succ hk, ?_, ?_, ?_⟩
        · simp [buildSnippetsAux, if_neg hcap, heq, List.take_succ_cons]
        · intro i hi
          cases i with
          | zero => rw [truncSum_zero]; omega
          | succ j =>
              have := hall j (Nat.lt_of_succ_lt_succ hi)
              rw [truncSum_cons]; omega
        · intro hlt
          have := hcross (by simpa using Nat.lt_of_succ_lt_succ hlt)
          rw [truncSum_cons]; omega

/-- C5: snippet assembly includes exactly a prefix of the sampled files:
a file is included precisely while the cumulative truncated length of
the files before it is at most the 12000-character cap, so the file that
crosses the cap is still included and everything after it is skipped. -/
theorem snippet_cap_stops_assembly (files : List (List Char × List Char)) :
    ∃ k, k ≤ files.length ∧
      buildSnippets files = (files.take k).map (fun pt => snippetFor pt.1) ∧
      (∀ i, i < k → truncSum files i ≤ snippetCap) ∧
      (k < files.length → truncSum files k > snippetCap) := by
  obtain ⟨k, hk, heq, hall, hcross⟩ := buildSnippetsAux_spec files 0
  refine ⟨k, hk, heq, ?_, ?_⟩
  · intro i hi
    have := hall i hi
    omega
  · intro h
    have := hcross h
    omega

/-- Witness for `snippet_cap_stops_assembly` on a one-file list: the
characterization forces the single file to be included. -/
theorem snippet_cap_stops_assembly_witness :
    buildSnippets [("a".toList, "x".toList)] = [snippetFor "a".toList] := by
  obtain ⟨k, hk, heq, hall, hcross⟩ :=
    snippet_cap_stops_assembly [("a".toList, "x".toList)]
  have hk1 : k ≤ 1 := by simpa using hk
  interval_cases k
  · have h0 := hcross (by norm_num)
    rw [truncSum_zero] at h0
    omega
  · simpa using heq

/-- C8 counterexample: with pages of three entries and the cap
configured to 4, the accumulated listing has 6 entries — more than the
cap, refuting "never exceeds the configured cap in length". -/
theorem walkTree_exceeds_cap :
    (walkTree (fun _ => ([0, 0, 0] : List Nat)) 4).length = 6 ∧ 4 < 6 :=
  ⟨by simp [walkTree, walkTreeAux], by decide⟩

theorem walkTreeAux_length_le {α : Type} (provider : Nat → List α)
    (maxFiles P : Nat) (hP : ∀ n, (provider n).length ≤ P) :
    ∀ k page (items : List α), maxFiles - items.length ≤ k →
      items.length < maxFiles →
      (walkTreeAux provider maxFiles page items).length ≤ maxFiles - 1 + P := by
  intro k
  induction k with
  | zero => intro page items hk hlt; omega
  | succ k ih =>
      intro page items hk hlt
      rw [walkTreeAux]
      split
      · omega
      · rename_i hne
        split
        · have := hP page
          simp only [List.length_append]
          omega
        · rename_i hcap
          apply ih
          · have hne2 : provider page ≠ [] := by
              simpa [List.isEmpty_iff] using hne
            have hpos : 0 < (provider page).length := List.length_pos.mpr hne2
            simp only [List.length_append] at hcap ⊢
            omega
          · simp only [List.length_append] at hcap ⊢
            omega

/-- C8 amended: the pagination loop stops immediately on an empty page,
and when every page has at most `P` entries the accumulated listing has
at most `maxFiles - 1 + P` entries: the count is below the cap before
the final page is appended, so the result can overshoot the cap by at
most one page. -/
theorem walkTree_stops_and_bounded {α : Type} (provider : Nat → List α)
    (maxFiles P : Nat) (hmax : 0 < maxFiles)
    (hP : ∀ n, (provider n).length ≤ P) :
    (∀ page (items : List α), provider page = [] →
      walkTreeAux provider maxFiles page items = items) ∧
    (walkTree provider maxFiles).length ≤ maxFiles - 1 + P := by
  constructor
  · intro page items hempty
    rw [walkTreeAux]
    simp [hempty]
  · exact walkTreeAux_length_le provider maxFiles P hP maxFiles 1 []
      (by simp) (by simpa using hmax)

/-- Witness for `walkTree_stops_and_bounded` with one-entry pages and
cap 2. -/
theorem walkTree_stops_and_bounded_witness :
    0 < 2 ∧ (∀ n : Nat, (([0] : List Nat)).length ≤ 1) ∧
    (walkTree (fun _ => ([0] : List Nat)) 2).length ≤ 2 - 1 + 1 :=
  ⟨by decide, fun _ => by decide,
   (walkTree_stops_and_bounded (fun _ => ([0] : List Nat)) 2 1 (by decide)
     (fun _ => Nat.le_refl 1)).2⟩

/-! ### Brace-extraction lemmas for the response parser -/

theorem parseValue_obj_of_brace (fuel : Nat) (r : List Char) (v : JVal)
    (rest : List Char) (h : parseValue (fuel + 1) ('{' :: r) = some (v, rest)) :
    ∃ fs, v = JVal.obj fs := by
  have hws : skipWs ('{' :: r) = '{' :: r := rfl
  rw [parseValue, hws] at h
  simp only [if_true] at h
  split at h
  · simp at h
    exact ⟨[], h.1.symm⟩
  · split at h
    · simp at h
      exact ⟨_, h.1.symm⟩
    · simp at h

theorem jsonLoads_obj_of_brace (r : List Char) (v : JVal)
    (h : jsonLoads ('{' :: r) = some v) : ∃ fs, v = JVal.obj fs := by
  unfold jsonLoads at h
  cases hp : parseValue (('{' :: r).length + 1) ('{' :: r) with
  | none => rw [hp] at h; simp at h
  | some pr =>
      obtain ⟨v2, rest⟩ := pr
      simp only [hp] at h
      by_cases hr : skipWs rest = []
      · rw [if_pos hr] at h
        simp only [Option.some.injEq] at h
        exact h ▸ parseValue_obj_of_brace _ r v2 rest hp
      · rw [if_neg hr] at h
        simp at h

theorem findIdx?_boundary (pre l : List Char) (c : Char) (hpre : c ∉ pre)
    (hl : l.head? = some c) :
    (pre ++ l).findIdx? (fun x => decide (x = c)) = some pre.length := by
  cases l with
  | nil => simp at hl
  | cons d l2 =>
      have hd : d = c := by simpa using hl
      subst hd
      have hnone : pre.findIdx? (fun x => decide (x = d)) = none := by
        refine List.findIdx?_eq_none_iff.mpr ?_
        intro x hx
        simp only [decide_eq_false_iff_not]
        intro hxc
        exact hpre (hxc ▸ hx)
      rw [List.findIdx?_append, hnone]
      simp [List.findIdx?_cons]

theorem pyFind_boundary (pre l : List Char) (c : Char) (hpre : c ∉ pre)
    (hl : l.head? = some c) : pyFind (pre ++ l) c = (pre.length : Int) := by
  unfold pyFind
  rw [findIdx?_boundary pre l c hpre hl]

theorem pyRfind_boundary (pre j post : List Char) (c : Char) (hpost : c ∉ post)
    (hj : j.getLast? = some c) :
    pyRfind (pre ++ j ++ post) c = (pre.length : Int) + (j.length : Int) - 1 := by
  have hrev : (pre ++ j ++ post).reverse = post.reverse ++ (j.reverse ++ pre.reverse) := by
    rw [List.reverse_append, List.reverse_append]
  have hjhead : (j.reverse ++ pre.reverse).head? = some c := by
    have h1 : j.reverse.head? = some c := by
      rw [List.head?_reverse]
      exact hj
    cases hc : j.reverse with
    | nil => rw [hc] at h1; simp at h1
    | cons d l2 =>
        rw [hc] at h1
        simpa using h1
  have hpostrev : c ∉ post.reverse := by simpa using hpost
  unfold pyRfind
  rw [hrev, findIdx?_boundary post.reverse (j.reverse ++ pre.reverse) c hpostrev hjhead]
  simp only [List.length_append, List.length_reverse]
  push_cast
  ring

theorem pySlice_middle (pre j post : List Char) :
    pySlice (pre ++ j ++ post) (pre.length : Int)
      ((pre.length : Int) + (j.length : Int)) = j := by
  simp only [pySlice]
  rw [if_neg (by omega), if_neg (by omega)]
  have h1 : (min ((pre.length : Int)) (((pre ++ j ++ post).length : Int))).toNat
      = pre.length := by
    simp only [List.length_append]
    omega
  have h2 : ((min ((pre.length : Int) + (j.length : Int))
        (((pre ++ j ++ post).length : Int))) -
      min ((pre.length : Int)) (((pre ++ j ++ post).length : Int))).toNat
      = j.length := by
    simp only [List.length_append]
    omega
  rw [h1, h2, List.append_assoc, List.drop_left, List.take_left]

/-- C7: a response consisting of a well-formed JSON object preceded by
prose without an opening brace and followed by prose without a closing
brace parses to exactly the embedded object. -/
theorem analyze_roundtrip (pre j post : List Char) (v : JVal)
    (hpre : '{' ∉ pre) (hpost : '}' ∉ post)
    (hhead : j.head? = some '{') (hlast : j.getLast? = some '}')
    (hparse : jsonLoads j = some v) :
    analyzeParse (pre ++ j ++ post) = v := by
  have hl2 : (j ++ post).head? = some '{' := by
    cases j with
    | nil => simp at hhead
    | cons d l2 => simpa using hhead
  have hfind : pyFind (pre ++ j ++ post) '{' = (pre.length : Int) := by
    rw [List.append_assoc]
    exact pyFind_boundary pre (j ++ post) '{' hpre hl2
  have hrfind : pyRfind (pre ++ j ++ post) '}' =
      (pre.length : Int) + (j.length : Int) - 1 :=
    pyRfind_boundary pre j post '}' hpost hlast
  unfold analyzeParse extractJson
  rw [hfind, hrfind]
  have harith : (pre.length : Int) + (j.length : Int) - 1 + 1 =
      (pre.length : Int) + (j.length : Int) := by ring
  rw [harith, pySlice_middle, hparse]

/-- Witness for `analyze_roundtrip`: the empty object embedded in
prose. -/
theorem analyze_roundtrip_witness :
    analyzeParse ("Here: ".toList ++ ('{' :: '}' :: []) ++ " Thanks.".toList) =
      JVal.obj [] :=
  analyze_roundtrip "Here: ".toList ('{' :: '}' :: []) " Thanks.".toList
    (JVal.obj []) (by decide) (by decide) rfl rfl rfl

theorem slice_no_brace (out : List Char)
    (hf : out.findIdx? (fun x => decide (x = '{')) = none) :
    pySlice out (pyFind out '{') (pyRfind out '}' + 1) = [] ∨
    pySlice out (pyFind out '{') (pyRfind out '}' + 1) = ['}'] := by
  have hfind : pyFind out '{' = -1 := by
    unfold pyFind
    rw [hf]
  rw [hfind]
  cases hr : out.reverse.findIdx? (fun x => decide (x = '}')) with
  | none =>
      left
      have hrf : pyRfind out '}' = -1 := by
        unfold pyRfind
        rw [hr]
      rw [hrf]
      simp only [pySlice]
      rw [if_pos (show (-1 : Int) < 0 by norm_num),
          if_neg (show ¬((-1 : Int) + 1 < 0) by norm_num)]
      rw [List.take_eq_nil_iff]
      left
      omega
  | some ir =>
      obtain ⟨hlt, hp, _⟩ := List.findIdx?_eq_some_iff_getElem.mp hr
      have hlt2 : ir < out.length := by simpa using hlt
      have hlast : out[out.length - 1 - ir] = '}' := by
        have h1 : out.reverse[ir] = '}' := of_decide_eq_true hp
        rwa [List.getElem_reverse] at h1
      have hrf : pyRfind out '}' = (out.length : Int) - 1 - (ir : Int) := by
        unfold pyRfind
        rw [hr]
      rw [hrf]
      by_cases hir : ir = 0
      · subst hir
        right
        simp only [pySlice]
        rw [if_pos (show (-1 : Int) < 0 by norm_num),
          if_neg (show ¬((out.length : Int) - 1 - (((0 : Nat) : Int)) + 1 < 0)
            by omega)]
        have hi : (max (-1 + (out.length : Int)) 0).toNat = out.length - 1 := by
          omega
        have hj : ((min ((out.length : Int) - 1 - ((0 : Nat) : Int) + 1)
            ((out.length : Int))) - max (-1 + (out.length : Int)) 0).toNat = 1 := by
          omega
        rw [hi, hj]
        have hdrop : out.drop (out.length - 1) =
            out[out.length - 1] :: out.drop (out.length - 1 + 1) :=
          List.drop_eq_getElem_cons (by omega)
        rw [hdrop, show out.length - 1 + 1 = out.length by omega, List.drop_length]
        have hx : out[out.length - 1] = '}' := by simpa using hlast
        simp [hx]
      · left
        simp only [pySlice]
        rw [if_pos (show (-1 : Int) < 0 by norm_num),
          if_neg (show ¬((out.length : Int) - 1 - ((ir : Nat) : Int) + 1 < 0)
            by omega)]
        rw [List.take_eq_nil_iff]
        left
        omega

theorem extract_slice_head_or_fail (out : List Char) :
    (pySlice out (pyFind out '{') (pyRfind out '}' + 1)).head? = some '{' ∨
    jsonLoads (pySlice out (pyFind out '{') (pyRfind out '}' + 1)) = none := by
  cases hf : out.findIdx? (fun x => decide (x = '{')) with
  | none =>
      right
      rcases slice_no_brace out hf with h | h <;> rw [h] <;> rfl
  | some i =>
      obtain ⟨hlt, hp, _⟩ := List.findIdx?_eq_some_iff_getElem.mp hf
      have hieq : out[i] = '{' := of_decide_eq_true hp
      have hfind : pyFind out '{' = (i : Int) := by
        unfold pyFind
        rw [hf]
      rw [hfind]
      simp only [pySlice]
      rw [if_neg (show ¬((i : Int) < 0) by omega)]
      have hi : (min ((i : Int)) ((out.length : Int))).toNat = i := by omega
      rw [hi]
      have key : ∀ m : Nat, ((out.drop i).take m).head? = some '{' ∨
          (out.drop i).take m = [] := by
        intro m
        cases m with
        | zero => right; simp
        | succ m2 =>
            left
            rw [List.drop_eq_getElem_cons hlt]
            simp [hieq]
      refine (key _).imp (fun h => h) (fun h => ?_)
      rw [h]
      rfl

/-- C4 counterexample: the response text consisting of just an empty
JSON object parses successfully, and the returned result has no `c1`
(nor any other) field — the field is absent, not defaulted. -/
theorem analyze_success_missing_field :
    analyzeParse ('{' :: '}' :: []) = JVal.obj [] ∧
    objLookup [] "c1".toList = none :=
  ⟨rfl, rfl⟩

/-- C4 amended: whatever the response text, `analyze` returns a JSON
object (the parsed value on success — possibly missing any of the five
fields — or the fallback), and `main`'s defaulted field reads on that
object always succeed, so downstream rendering never fails on a missing
key. -/
theorem analyze_always_dict (out k : List Char) :
    (∃ fs, analyzeParse out = JVal.obj fs) ∧
    (∃ v, dictGet (analyzeParse out) k (JVal.str []) = Except.ok v) := by
  have hobj : ∃ fs, analyzeParse out = JVal.obj fs := by
    unfold analyzeParse
    cases he : extractJson out with
    | none => exact ⟨_, rfl⟩
    | some v =>
        show ∃ fs, v = JVal.obj fs
        unfold extractJson at he
        rcases extract_slice_head_or_fail out with hh | hh
        · cases hcase : pySlice out (pyFind out '{') (pyRfind out '}' + 1) with
          | nil => rw [hcase] at hh; simp at hh
          | cons c r =>
              have hc : c = '{' := by
                rw [hcase] at hh
                simpa using hh
              subst hc
              rw [hcase] at he
              exact jsonLoads_obj_of_brace r v he
        · rw [hh] at he
          simp at he
  refine ⟨hobj, ?_⟩
  obtain ⟨fs, hfs⟩ := hobj
  exact ⟨(objLookup fs k).getD (JVal.str []), by rw [hfs]; rfl⟩

end GitAnalysis

